import Mathlib

/-!
Verification of the circular queue engine of libac (`src/ac_cqueue.c`).

Modelling conventions:
* Item handles (`void *`) are modelled as `Nat`, with `0` playing the role
  of the `NULL` pointer.
* Uninitialised memory returned by `malloc`/`realloc` is modelled by an
  explicit argument `mem : Nat → Nat` giving the (arbitrary) contents of
  freshly allocated slots, so theorems quantify over what the garbage is.
* `realloc` success/failure is an explicit `allocOk : Bool` argument.
* Calls to the injected `free_item` callback are made observable: the
  operations return the list of values passed to `free_item`, in call order.
-/

namespace LibacCQueue

/-- `AC_CQUEUE_ALLOC_CHUNK_SZ` from `ac_cqueue.c` line 22. -/
def AC_CQUEUE_ALLOC_CHUNK_SZ : Nat := 16

/-- Modelled from the spec: the flag constant `AC_CQUEUE_OVERWRITE` comes from
the header `include/libac.h`, which is not among the provided sources; the spec
says `flags` recognizes exactly the one `OVERWRITE` option, modelled here as
bit 0 of the flag word. -/
def AC_CQUEUE_OVERWRITE : Nat := 1

/-- All bits of a 32-bit `int`, used to model the C complement `~AC_CQUEUE_OVERWRITE`. -/
def UINT_MAX32 : Nat := 4294967295

/-- The struct `ac_cqueue_t`.  `queue` is the backing slot array (length
`size`); a slot value `0` is the `NULL` pointer. -/
structure ac_cqueue_t where
  size : Nat
  queue : List Nat
  front : Nat
  rear : Nat
  count : Nat
  dyn_size : Bool
  overwrite : Bool
deriving Repr, DecidableEq

/-- The body of `ac_cqueue_new` (lines 45-68) after the flag check has passed:
choose the size and growability, allocate the slot array (contents `mem` when
not cleared), and zero it when overwrite mode is requested. -/
def mkQueue (size : Nat) (flags : Nat) (mem : Nat → Nat) : ac_cqueue_t :=
  let sz := if size = 0 then AC_CQUEUE_ALLOC_CHUNK_SZ else size
  let ow := flags &&& AC_CQUEUE_OVERWRITE != 0
  { size := sz
    queue := if ow then List.replicate sz 0 else (List.range sz).map mem
    front := 0
    rear := 0
    count := 0
    dyn_size := size == 0
    overwrite := ow }

/-- `ac_cqueue_new` (lines 34-69): reject any flag bit outside
`AC_CQUEUE_OVERWRITE` (`flags & ~AC_CQUEUE_OVERWRITE` over a 32-bit `int`),
otherwise build the queue. -/
def ac_cqueue_new (size : Nat) (flags : Nat) (mem : Nat → Nat) : Option ac_cqueue_t :=
  if flags &&& (UINT_MAX32 ^^^ AC_CQUEUE_OVERWRITE) ≠ 0 then none
  else some (mkQueue size flags mem)

/-- Lines 88-100 of `ac_cqueue_push` with the `realloc` succeeding: grow the
slot array by 16 uninitialised slots (contents `mem`) when a growable queue is
full; otherwise leave the queue untouched. -/
def growStep (cq : ac_cqueue_t) (mem : Nat → Nat) : ac_cqueue_t :=
  if cq.count = cq.size ∧ cq.dyn_size = true then
    { cq with
        queue := cq.queue ++ (List.range AC_CQUEUE_ALLOC_CHUNK_SZ).map mem
        size := cq.size + AC_CQUEUE_ALLOC_CHUNK_SZ }
  else cq

/-- Lines 102-103 of `ac_cqueue_push`: wrap `rear` to 0 once it reaches `size`. -/
def wrapRearStep (cq : ac_cqueue_t) : ac_cqueue_t :=
  if cq.rear = cq.size then { cq with rear := 0 } else cq

/-- Lines 105-106 of `ac_cqueue_push`: the values passed to `free_item`
(the eviction of a non-`NULL` occupant of the target slot in overwrite mode). -/
def evictList (cq : ac_cqueue_t) : List Nat :=
  if cq.overwrite = true ∧ cq.queue.getD cq.rear 0 ≠ 0 then [cq.queue.getD cq.rear 0]
  else []

/-- Lines 108-109 of `ac_cqueue_push`: store the item at `rear` and advance
`rear` (not yet wrapped). -/
def storeStep (cq : ac_cqueue_t) (item : Nat) : ac_cqueue_t :=
  { cq with queue := cq.queue.set cq.rear item, rear := cq.rear + 1 }

/-- Lines 110-111 of `ac_cqueue_push`: increment `count` unless already at
`size`. -/
def countStep (cq : ac_cqueue_t) : ac_cqueue_t :=
  if cq.count < cq.size then { cq with count := cq.count + 1 } else cq

/-- Lines 117-121 of `ac_cqueue_push`: in overwrite mode, when `front < rear`,
set `front` to `rear` wrapped to 0 at `size`. -/
def frontStep (cq : ac_cqueue_t) : ac_cqueue_t :=
  if cq.overwrite = true ∧ cq.front < cq.rear then
    { cq with front := if cq.rear = cq.size then 0 else cq.rear }
  else cq

/-- `ac_cqueue_push` (lines 81-124).  Returns the C return code (`-1` failure,
`0` success), the new queue state, and the list of values passed to
`free_item` (the eviction at lines 105-106).  `allocOk` models whether the
`realloc` at line 91 succeeds; `mem` gives the contents of the 16 fresh
(uninitialised) slots it appends. -/
def ac_cqueue_push (cq : ac_cqueue_t) (item : Nat) (allocOk : Bool) (mem : Nat → Nat) :
    Int × ac_cqueue_t × List Nat :=
  if cq.count = cq.size ∧ cq.dyn_size = false ∧ cq.overwrite = false then
    (-1, cq, [])
  else if cq.count = cq.size ∧ cq.dyn_size = true ∧ allocOk = false then
    (-1, cq, [])
  else
    let cq2 := wrapRearStep (growStep cq mem)
    (0, frontStep (countStep (storeStep cq2 item)), evictList cq2)

/-- `ac_cqueue_pop` (lines 135-152).  Returns the popped pointer (`0` both for
the empty queue and for a stored `NULL`) and the new state. -/
def ac_cqueue_pop (cq : ac_cqueue_t) : Nat × ac_cqueue_t :=
  if cq.count = 0 then (0, cq)
  else
    let cq1 := if cq.front = cq.size then { cq with front := 0 } else cq
    let cq2 := { cq1 with count := cq1.count - 1 }
    let ptr := cq2.queue.getD cq2.front 0
    let cq3 :=
      if cq2.overwrite = true then { cq2 with queue := cq2.queue.set cq2.front 0 }
      else cq2
    (ptr, { cq3 with front := cq3.front + 1 })

/-- `ac_cqueue_destroy` (lines 213-229): the sequence of values passed to
`free_item` by the two-span traversal (`[front, rear)` when `front < rear`,
otherwise `[front, size)` followed by `[0, rear)`). -/
def ac_cqueue_destroy (cq : ac_cqueue_t) : List Nat :=
  if cq.front < cq.rear then
    (List.range' cq.front (cq.rear - cq.front)).map (fun i => cq.queue.getD i 0)
  else
    (List.range' cq.front (cq.size - cq.front)).map (fun i => cq.queue.getD i 0) ++
      (List.range cq.rear).map (fun i => cq.queue.getD i 0)

/-- One user-visible mutating operation on a queue. -/
inductive Op where
  | push (item : Nat) (allocOk : Bool) (mem : Nat → Nat)
  | pop

/-- Apply one operation to a queue state. -/
def runOp (cq : ac_cqueue_t) (op : Op) : ac_cqueue_t :=
  match op with
  | .push item allocOk mem => (ac_cqueue_push cq item allocOk mem).2.1
  | .pop => (ac_cqueue_pop cq).2

/-- Apply a sequence of operations, left to right. -/
def runOps (cq : ac_cqueue_t) (ops : List Op) : ac_cqueue_t :=
  ops.foldl runOp cq

/-- Push a list of items one by one (no growth attempted: `allocOk = true`,
fresh-slot garbage all zero; irrelevant for fixed-size queues).  Returns the
final state, the list of return codes, and the concatenated eviction lists. -/
def pushSeq (cq : ac_cqueue_t) (items : List Nat) : ac_cqueue_t × List Int × List Nat :=
  match items with
  | [] => (cq, [], [])
  | x :: xs =>
    let r := ac_cqueue_push cq x true (fun _ => 0)
    let rest := pushSeq r.2.1 xs
    (rest.1, r.1 :: rest.2.1, r.2.2 ++ rest.2.2)

/-- Pop `n` times, collecting the returned pointers. -/
def popSeq (cq : ac_cqueue_t) (n : Nat) : List Nat × ac_cqueue_t :=
  match n with
  | 0 => ([], cq)
  | Nat.succ m =>
    let r := ac_cqueue_pop cq
    let rest := popSeq r.2 m
    (r.1 :: rest.1, rest.2)

/-- The index/size bookkeeping invariant maintained by every operation. -/
def QInv (q : ac_cqueue_t) : Prop :=
  0 < q.size ∧ q.front ≤ q.size ∧ q.rear ≤ q.size ∧ q.count ≤ q.size ∧
    q.queue.length = q.size

/-- Overwrite the slots of `arr` starting at index `i` with `items`, in
order (the effect of consecutive stores at `rear`, `rear+1`, ...). -/
def writeAt (arr : List Nat) (i : Nat) (items : List Nat) : List Nat :=
  match items with
  | [] => arr
  | x :: xs => writeAt (arr.set i x) (i + 1) xs

/-- Closed form of the state of a fresh overwrite-mode queue of fixed
capacity `N` after pushing the list `xs` (and nothing else): slot `j` holds
the most recent item whose push index is congruent to `j` mod `N`; `front`
and `rear` both track the write position, `count` saturates at `N`. -/
def owState (N : Nat) (xs : List Nat) : ac_cqueue_t :=
  { size := N
    queue := (List.range N).map (fun j =>
        if j < xs.length then xs.getD (xs.length - 1 - ((xs.length - 1 - j) % N)) 0 else 0)
    front := xs.length % N
    rear := if xs.length = 0 then 0 else (xs.length - 1) % N + 1
    count := min xs.length N
    dyn_size := false
    overwrite := true }

end LibacCQueue

namespace LibacCQueue

-- Sanity checks of the embedding on the spec's own scenarios (to be removed
-- or kept as examples; they are not claim theorems).

-- capacity=3, no overwrite: insert A,B,C succeed; D fails; remove A,B,C, then empty
example :
    let g : Nat → Nat := fun _ => 0
    let q0 := mkQueue 3 0 g
    let s := pushSeq q0 [10, 20, 30]
    s.2.1 = [0, 0, 0] ∧
    (ac_cqueue_push s.1 40 true g).1 = -1 ∧
    (ac_cqueue_push s.1 40 true g).2.1.count = 3 ∧
    (popSeq s.1 3).1 = [10, 20, 30] ∧
    (ac_cqueue_pop (popSeq s.1 3).2).1 = 0 := by
  decide

-- capacity=3, overwrite: insert A,B,C,D; D's insertion evicts A; remove B,C,D
example :
    let g : Nat → Nat := fun _ => 0
    let q0 := mkQueue 3 1 g
    let s := pushSeq q0 [10, 20, 30, 40]
    s.2.1 = [0, 0, 0, 0] ∧
    s.2.2 = [10] ∧
    (popSeq s.1 3).1 = [20, 30, 40] ∧
    (ac_cqueue_pop (popSeq s.1 3).2).1 = 0 := by
  decide

/-! ### Shared helper lemmas -/

theorem getD_map_range (f : Nat → Nat) (n j : Nat) (h : j < n) :
    ((List.range n).map f).getD j 0 = f j := by
  have hlen : j < ((List.range n).map f).length := by simpa using h
  rw [List.getD_eq_getElem _ _ hlen]
  simp

theorem getD_set_self (l : List Nat) (i x : Nat) (h : i < l.length) :
    (l.set i x).getD i 0 = x := by
  rw [List.getD_eq_getElem _ _ (by simpa using h)]
  simp

theorem getD_set_ne (l : List Nat) (i j x : Nat) (h : i ≠ j) :
    (l.set i x).getD j 0 = l.getD j 0 := by
  by_cases hj : j < l.length
  · rw [List.getD_eq_getElem _ _ (by simpa using hj), List.getD_eq_getElem _ _ hj]
    exact List.getElem_set_ne h _
  · rw [List.getD_eq_default _ _ (by simpa using Nat.le_of_not_lt hj),
      List.getD_eq_default _ _ (Nat.le_of_not_lt hj)]

theorem add_mod_ne_self (size f0 k : Nat) (hf : f0 < size) (hk0 : 0 < k) (hks : k < size) :
    (f0 + k) % size ≠ f0 := by
  rcases Nat.lt_or_ge (f0 + k) size with h | h
  · rw [Nat.mod_eq_of_lt h]
    omega
  · rw [Nat.mod_eq_sub_mod h, Nat.mod_eq_of_lt (by omega)]
    omega

theorem map_getD_range (l : List Nat) :
    (List.range l.length).map (fun t => l.getD t 0) = l := by
  apply List.ext_getElem (by simp)
  intro i h1 h2
  simp only [List.getElem_map, List.getElem_range]
  exact List.getD_eq_getElem l 0 h2

theorem writeAt_length (items : List Nat) (arr : List Nat) (i : Nat) :
    (writeAt arr i items).length = arr.length := by
  induction items generalizing arr i with
  | nil => rfl
  | cons x xs ih => simp [writeAt, ih]

theorem writeAt_getD_lt (items : List Nat) (arr : List Nat) (i j : Nat) (hj : j < i) :
    (writeAt arr i items).getD j 0 = arr.getD j 0 := by
  induction items generalizing arr i with
  | nil => rfl
  | cons x xs ih =>
    rw [writeAt, ih _ (i + 1) (by omega), getD_set_ne _ _ _ _ (by omega)]

theorem writeAt_getD (items : List Nat) (arr : List Nat) (i j : Nat)
    (hij : i + items.length ≤ arr.length) (hj : j < items.length) :
    (writeAt arr i items).getD (i + j) 0 = items.getD j 0 := by
  induction items generalizing arr i j with
  | nil => simp at hj
  | cons x xs ih =>
    cases j with
    | zero =>
      rw [writeAt, writeAt_getD_lt _ _ _ _ (by omega)]
      simpa using getD_set_self arr i x (by simp at hij; omega)
    | succ j' =>
      have : i + (j' + 1) = (i + 1) + j' := by omega
      rw [writeAt, this, ih (arr.set i x) (i + 1) j' (by simp; simp at hij; omega)
        (by simp at hj; omega)]
      simp

theorem succ_mod (m N : Nat) (hN : 0 < N) (hm : 0 < m) :
    m % N = if (m - 1) % N + 1 = N then 0 else (m - 1) % N + 1 := by
  have hd := Nat.div_add_mod (m - 1) N
  have hlt : (m - 1) % N < N := Nat.mod_lt _ hN
  by_cases h : (m - 1) % N + 1 = N
  · rw [if_pos h]
    have hmul : N * ((m - 1) / N + 1) = N * ((m - 1) / N) + N := by ring
    have he : m = N * ((m - 1) / N + 1) := by omega
    rw [he, Nat.mul_mod_right]
  · rw [if_neg h]
    have he : m = N * ((m - 1) / N) + ((m - 1) % N + 1) := by omega
    conv_lhs => rw [he]
    rw [Nat.mul_add_mod]
    exact Nat.mod_eq_of_lt (by omega)

theorem mod_idx_full (m N : Nat) (hN : 0 < N) (hm : N ≤ m) :
    (m - 1 - m % N) % N = N - 1 := by
  have hd := Nat.div_add_mod m N
  have hq : 1 ≤ m / N := (Nat.one_le_div_iff hN).mpr hm
  have hr : m % N < N := Nat.mod_lt _ hN
  obtain ⟨q, hqe⟩ : ∃ q, m / N = q + 1 := ⟨m / N - 1, by omega⟩
  rw [hqe] at hd
  have hmul : N * (q + 1) = N * q + N := by ring
  rw [hmul] at hd
  have he : m - 1 - m % N = N * q + (N - 1) := by omega
  rw [he, Nat.mul_add_mod]
  exact Nat.mod_eq_of_lt (by omega)

theorem sub_mod_ne_zero (m N j : Nat) (_hN : 0 < N) (hj : j < N) (hjm : j < m)
    (hne : j ≠ m % N) : (m - j) % N ≠ 0 := by
  intro h0
  obtain ⟨k, hk⟩ := Nat.dvd_of_mod_eq_zero h0
  have he : m = j + N * k := by omega
  have hmj : m % N = j := by rw [he, Nat.add_mul_mod_self_left, Nat.mod_eq_of_lt hj]
  exact hne hmj.symm

theorem sub_mod_succ (m N j : Nat) (hN : 0 < N) (hjm : j < m)
    (hnz : (m - j) % N ≠ 0) : (m - j) % N = (m - 1 - j) % N + 1 := by
  have h1 : m - j = (m - 1 - j) + 1 := by omega
  have hs := succ_mod ((m - 1 - j) + 1) N hN (by omega)
  simp only [Nat.add_sub_cancel] at hs
  rw [h1] at hnz ⊢
  rw [hs] at hnz ⊢
  split_ifs at hnz ⊢ with h
  · exact absurd rfl hnz
  · rfl

theorem owQueue_set (N : Nat) (xs : List Nat) (x : Nat) (hN : 0 < N) :
    ((List.range N).map (fun j =>
        if j < xs.length then xs.getD (xs.length - 1 - ((xs.length - 1 - j) % N)) 0
        else 0)).set (xs.length % N) x =
      (List.range N).map (fun j =>
        if j < xs.length + 1 then (xs ++ [x]).getD (xs.length - ((xs.length - j) % N)) 0
        else 0) := by
  have hmN : xs.length % N < N := Nat.mod_lt _ hN
  apply List.ext_getElem (by simp)
  intro j hj1 hj2
  have hjN : j < N := by simpa using hj2
  rw [List.getElem_map, List.getElem_range]
  by_cases hj : j = xs.length % N
  · subst hj
    rw [List.getElem_set_self (by simpa using hmN)]
    have hc : xs.length % N < xs.length + 1 :=
      Nat.lt_succ_of_le (Nat.mod_le _ _)
    rw [if_pos hc]
    have hz : (xs.length - xs.length % N) % N = 0 := by
      have hd := Nat.div_add_mod xs.length N
      have he : xs.length - xs.length % N = N * (xs.length / N) := by omega
      rw [he, Nat.mul_mod_right]
    rw [hz, Nat.sub_zero]
    rw [List.getD_append_right xs [x] 0 xs.length (Nat.le_refl _)]
    simp
  · rw [List.getElem_set_ne (fun he => hj he.symm) _, List.getElem_map, List.getElem_range]
    by_cases hjm : j < xs.length
    · rw [if_pos hjm, if_pos (by omega)]
      have hnz := sub_mod_ne_zero xs.length N j hN hjN hjm hj
      have hsucc := sub_mod_succ xs.length N j hN hjm hnz
      rw [hsucc]
      have hmodle : (xs.length - 1 - j) % N ≤ xs.length - 1 :=
        le_trans (Nat.mod_le _ _) (by omega)
      have hidx : xs.length - ((xs.length - 1 - j) % N + 1) =
          xs.length - 1 - ((xs.length - 1 - j) % N) := by omega
      rw [hidx]
      rw [List.getD_append _ _ _ _ (by omega)]
    · have hjm1 : ¬ j < xs.length + 1 := by
        intro hcon
        have hjem : j = xs.length := by omega
        apply hj
        rw [hjem, Nat.mod_eq_of_lt (by omega)]
      rw [if_neg hjm, if_neg hjm1]

/-- A push on the closed-form overwrite state: the success path is taken, the
item lands at `length % N`, the occupant there (the oldest live item, when the
queue is full) is evicted, and the state advances to the closed form for
`xs ++ [x]`. -/
theorem push_owState (N : Nat) (xs : List Nat) (x : Nat) (hN : 0 < N)
    (hxs : ∀ a ∈ xs, a ≠ 0) (a : Bool) (mem : Nat → Nat) :
    ac_cqueue_push (owState N xs) x a mem =
      (0, owState N (xs ++ [x]),
        if N ≤ xs.length then [xs.getD (xs.length - N) 0] else []) := by
  have hmN : xs.length % N < N := Nat.mod_lt _ hN
  rw [ac_cqueue_push, if_neg (by simp [owState]), if_neg (by simp [owState])]
  have hgrow : growStep (owState N xs) mem = owState N xs := by
    rw [growStep, if_neg (by simp [owState])]
  rw [hgrow]
  have hwrap : wrapRearStep (owState N xs) =
      ⟨N, (owState N xs).queue, xs.length % N, xs.length % N,
        min xs.length N, false, true⟩ := by
    rw [wrapRearStep]
    by_cases hm : xs.length = 0
    · rw [if_neg (by simp [owState, hm]; omega)]
      simp [owState, hm]
    · have hs := succ_mod xs.length N hN (by omega)
      by_cases h : (xs.length - 1) % N + 1 = N
      · rw [if_pos (by simp [owState, hm, h])]
        simp [owState, hm, hs, h]
      · rw [if_neg (by simp [owState, hm, h])]
        simp [owState, hm, hs, h]
  rw [hwrap]
  dsimp only
  have hev : evictList
      ⟨N, (owState N xs).queue, xs.length % N, xs.length % N,
        min xs.length N, false, true⟩ =
      (if N ≤ xs.length then [xs.getD (xs.length - N) 0] else []) := by
    rw [evictList]
    have hslot : (owState N xs).queue.getD (xs.length % N) 0 =
        (if N ≤ xs.length then xs.getD (xs.length - N) 0 else 0) := by
      rw [owState]
      dsimp only
      rw [getD_map_range _ _ _ hmN]
      by_cases hcase : N ≤ xs.length
      · rw [if_pos (lt_of_lt_of_le hmN hcase), if_pos hcase,
          mod_idx_full xs.length N hN hcase]
        congr 1
        omega
      · rw [Nat.mod_eq_of_lt (by omega), if_neg (by omega), if_neg hcase]
    by_cases hcase : N ≤ xs.length
    · rw [if_pos hcase] at hslot
      have hnz : xs.getD (xs.length - N) 0 ≠ 0 := by
        rw [List.getD_eq_getElem _ _ (by omega)]
        exact hxs _ (List.getElem_mem _)
      dsimp only
      rw [hslot, if_pos ⟨rfl, hnz⟩, if_pos hcase]
    · rw [if_neg hcase] at hslot
      dsimp only
      rw [hslot, if_neg (by simp), if_neg hcase]
  rw [hev, storeStep]
  dsimp only
  have hcount : countStep
      ⟨N, (owState N xs).queue.set (xs.length % N) x, xs.length % N,
        xs.length % N + 1, min xs.length N, false, true⟩ =
      ⟨N, (owState N xs).queue.set (xs.length % N) x, xs.length % N,
        xs.length % N + 1, min (xs.length + 1) N, false, true⟩ := by
    rw [countStep]
    dsimp only
    by_cases hc : min xs.length N < N
    · rw [if_pos hc]
      simp only [ac_cqueue_t.mk.injEq]
      refine ⟨trivial, trivial, trivial, trivial, by omega, trivial, trivial⟩
    · rw [if_neg hc]
      simp only [ac_cqueue_t.mk.injEq]
      refine ⟨trivial, trivial, trivial, trivial, by omega, trivial, trivial⟩
  rw [hcount]
  have hfront : frontStep
      ⟨N, (owState N xs).queue.set (xs.length % N) x, xs.length % N,
        xs.length % N + 1, min (xs.length + 1) N, false, true⟩ =
      ⟨N, (owState N xs).queue.set (xs.length % N) x, (xs.length + 1) % N,
        xs.length % N + 1, min (xs.length + 1) N, false, true⟩ := by
    rw [frontStep, if_pos ⟨rfl, Nat.lt_succ_self _⟩]
    have hs := succ_mod (xs.length + 1) N hN (by omega)
    simp only [Nat.add_sub_cancel] at hs
    simp only [ac_cqueue_t.mk.injEq]
    exact ⟨trivial, trivial, hs.symm, trivial, trivial, trivial, trivial⟩
  rw [hfront]
  have hq : (⟨N, (owState N xs).queue.set (xs.length % N) x, (xs.length + 1) % N,
      xs.length % N + 1, min (xs.length + 1) N, false, true⟩ : ac_cqueue_t) =
      owState N (xs ++ [x]) := by
    simp only [owState]
    rw [owQueue_set N xs x hN]
    simp [Nat.add_sub_cancel]
  rw [hq]
theorem owState_nil (N : Nat) (hN : 0 < N) (mem : Nat → Nat) :
    mkQueue N 1 mem = owState N [] := by
  unfold mkQueue owState
  simp only [AC_CQUEUE_OVERWRITE]
  have hNz : N ≠ 0 := by omega
  simp [hNz, ac_cqueue_t.mk.injEq]

theorem pushSeq_append (q : ac_cqueue_t) (as bs : List Nat) :
    pushSeq q (as ++ bs) =
      ((pushSeq (pushSeq q as).1 bs).1,
        (pushSeq q as).2.1 ++ (pushSeq (pushSeq q as).1 bs).2.1,
        (pushSeq q as).2.2 ++ (pushSeq (pushSeq q as).1 bs).2.2) := by
  induction as generalizing q with
  | nil => simp [pushSeq]
  | cons a as ih => simp [pushSeq, ih, List.append_assoc]

theorem take_evict (ys : List Nat) (y : Nat) (N : Nat) (hN : 0 < N) :
    ys.take (ys.length - N) ++
        (if N ≤ ys.length then [ys.getD (ys.length - N) 0] else []) =
      (ys ++ [y]).take (ys.length + 1 - N) := by
  by_cases h : N ≤ ys.length
  · rw [if_pos h]
    have h1 : ys.length + 1 - N = (ys.length - N) + 1 := by omega
    rw [h1, List.take_append_of_le_length (by omega : ys.length - N + 1 ≤ ys.length),
      List.take_succ,
      List.getElem?_eq_getElem (by omega : ys.length - N < ys.length),
      List.getD_eq_getElem ys 0 (by omega : ys.length - N < ys.length)]
    simp
  · rw [if_neg h]
    have h1 : ys.length - N = 0 := by omega
    have h2 : ys.length + 1 - N = 0 ∨ (ys.length + 1 - N = 1 ∧ ys.length + 1 = N + 1) := by
      omega
    rcases h2 with h2 | ⟨h2, h3⟩
    · simp [h1, h2]
    · have h4 : ys.length = N := by omega
      simp [h1, h2, List.take_append_of_le_length (by omega)]
      omega

/-- The cumulative state of pushing `xs` into a fresh overwrite queue of
fixed capacity `N`: every push succeeds, and the values passed to
`free_item` are exactly the first `length - N` items, in insertion order. -/
theorem pushSeq_owState (N : Nat) (xs : List Nat) (mem : Nat → Nat) (hN : 0 < N)
    (hxs : ∀ a ∈ xs, a ≠ 0) :
    pushSeq (mkQueue N 1 mem) xs =
      (owState N xs, List.replicate xs.length (0 : Int), xs.take (xs.length - N)) := by
  induction xs using List.reverseRecOn with
  | nil => simp [pushSeq, owState_nil N hN mem]
  | append_singleton ys y ih =>
    have hys : ∀ a ∈ ys, a ≠ 0 := fun a ha => hxs a (by simp [ha])
    rw [pushSeq_append, ih hys]
    dsimp only
    have hone : pushSeq (owState N ys) [y] =
        ((owState N (ys ++ [y])), [(0 : Int)],
          if N ≤ ys.length then [ys.getD (ys.length - N) 0] else []) := by
      rw [pushSeq, push_owState N ys y hN hys true (fun _ => 0)]
      simp [pushSeq]
    rw [hone]
    dsimp only
    simp only [List.length_append, List.length_cons, List.length_nil, Nat.zero_add]
    refine congrArg₂ Prod.mk rfl (congrArg₂ Prod.mk ?_ ?_)
    · simp [List.replicate_succ']
    · exact take_evict ys y N hN

theorem pop_nonempty (q : ac_cqueue_t) (hc : q.count ≠ 0) :
    ac_cqueue_pop q =
      (q.queue.getD (if q.front = q.size then 0 else q.front) 0,
        { q with
            queue := if q.overwrite = true
              then q.queue.set (if q.front = q.size then 0 else q.front) 0
              else q.queue,
            count := q.count - 1,
            front := (if q.front = q.size then 0 else q.front) + 1 }) := by
  obtain ⟨sz, qu, f, r, c, d, ow⟩ := q
  by_cases hf : f = sz <;> cases ow <;> simp_all [ac_cqueue_pop]

/-- The values returned by popping a queue `c` times, `c` its count: the
window of `c` slots starting at the (wrapped) front index.  Also: the final
count is 0. -/
theorem popSeq_vals (c : Nat) (q : ac_cqueue_t)
    (hc : q.count = c) (hcs : c ≤ q.size) (hf : q.front ≤ q.size)
    (hlen : q.queue.length = q.size) (hs : 0 < q.size) :
    (popSeq q c).1 =
      (List.range c).map (fun t => q.queue.getD ((q.front % q.size + t) % q.size) 0) ∧
    (popSeq q c).2.count = 0 := by
  induction c generalizing q with
  | zero => simp [popSeq, hc]
  | succ n ih =>
    obtain ⟨sz, qu, f, r, c, d, ow⟩ := q
    dsimp only at hc hcs hf hlen hs ⊢
    have hc0 : c ≠ 0 := by omega
    have hf0lt : (if f = sz then 0 else f) < sz := by
      by_cases h : f = sz <;> simp [h] <;> omega
    have hf0 : f % sz = (if f = sz then 0 else f) := by
      by_cases h : f = sz
      · simp [h, Nat.mod_self]
      · simp [h, Nat.mod_eq_of_lt (show f < sz by omega)]
    have hpop : ac_cqueue_pop ⟨sz, qu, f, r, c, d, ow⟩ =
        (qu.getD (if f = sz then 0 else f) 0,
          ⟨sz, if ow = true then qu.set (if f = sz then 0 else f) 0 else qu,
            (if f = sz then 0 else f) + 1, r, c - 1, d, ow⟩) := by
      by_cases hft : f = sz <;> cases ow <;> simp_all [ac_cqueue_pop]
    obtain ⟨ihv, ihc⟩ := ih
      ⟨sz, if ow = true then qu.set (if f = sz then 0 else f) 0 else qu,
        (if f = sz then 0 else f) + 1, r, c - 1, d, ow⟩
      (by dsimp only; omega) (by dsimp only; omega) (by dsimp only; omega)
      (by cases ow <;> simp [hlen]) hs
    constructor
    · show (ac_cqueue_pop ⟨sz, qu, f, r, c, d, ow⟩).1 ::
          (popSeq (ac_cqueue_pop ⟨sz, qu, f, r, c, d, ow⟩).2 n).1 = _
      rw [hpop]
      dsimp only
      rw [ihv]
      dsimp only
      rw [List.range_succ_eq_map, List.map_cons, List.map_map, hf0]
      congr 1
      · rw [Nat.add_zero, Nat.mod_eq_of_lt hf0lt]
      · apply List.map_congr_left
        intro t ht
        have htn : t < n := List.mem_range.mp ht
        simp only [Function.comp]
        rw [Nat.mod_add_mod]
        have hidx : (if f = sz then 0 else f) + 1 + t =
            (if f = sz then 0 else f) + (t + 1) := by omega
        rw [hidx]
        cases ow with
        | false => simp
        | true =>
          simp only [if_pos rfl]
          exact getD_set_ne qu _ _ 0
            (Ne.symm (add_mod_ne_self sz _ (t + 1) hf0lt (by omega) (by omega)))
    · show (popSeq (ac_cqueue_pop ⟨sz, qu, f, r, c, d, ow⟩).2 n).2.count = 0
      rw [hpop]
      exact ihc

/-! ### C1 — overwrite-mode front tracking -/

/-- C1: the claim that after each Insert on an overwrite-mode queue `front`
coincides with the oldest live item, including on queues that are not yet
full, fails on the code: pushing a single item into a fresh overwrite queue of
capacity 3 stores the item at slot 0 but sets `front = 1`, an empty slot, and
the following Remove returns `NULL` instead of the live item. -/
theorem c1_front_diverges_from_oldest :
    (ac_cqueue_push (mkQueue 3 1 (fun _ => 0)) 5 true (fun _ => 0)).2.1.count = 1 ∧
    (ac_cqueue_push (mkQueue 3 1 (fun _ => 0)) 5 true (fun _ => 0)).2.1.queue = [5, 0, 0] ∧
    (ac_cqueue_push (mkQueue 3 1 (fun _ => 0)) 5 true (fun _ => 0)).2.1.front = 1 ∧
    (ac_cqueue_pop (ac_cqueue_push (mkQueue 3 1 (fun _ => 0)) 5 true (fun _ => 0)).2.1).1 = 0 := by
  decide

/-! ### C2 — destroy and exactly-once release -/

/-- C2: the claim that Destroy releases each still-live item exactly once and
never touches removed items fails on the code: on a capacity-2 non-overwrite
queue (all malloc garbage 0), pushing item 7 and then popping it (so
`count = 0` and the caller owns 7 again) leaves `front = rear = 1`, and the
two-span loop of `ac_cqueue_destroy` then invokes `free_item` twice — on the
garbage slot 1 and on the already-removed item 7 in slot 0 — instead of zero
times. -/
theorem c2_destroy_releases_removed_item :
    ((ac_cqueue_pop (ac_cqueue_push (mkQueue 2 0 (fun _ => 0)) 7 true
        (fun _ => 0)).2.1).2).count = 0 ∧
    (ac_cqueue_pop (ac_cqueue_push (mkQueue 2 0 (fun _ => 0)) 7 true (fun _ => 0)).2.1).1 = 7 ∧
    ac_cqueue_destroy
      ((ac_cqueue_pop (ac_cqueue_push (mkQueue 2 0 (fun _ => 0)) 7 true
        (fun _ => 0)).2.1).2) = [0, 7] := by
  decide

/-! ### C5 — growth of a wrapped live span -/

/-- C5: the claim that a successful growth preserves the live items and their
front-to-rear order fails on the code when the live span has wrapped: on a
growable queue, push items 1..16, pop one, push 17 (the queue is now full with
`front = rear = 1`), then push 18.  Capacity correctly becomes 32, but the
insert writes at `rear = 1`, clobbering the oldest live item 2 without any
release (nothing was ever passed to `free_item`), and the next Remove returns
18 instead of 2. -/
theorem c5_growth_clobbers_wrapped_span :
    (ac_cqueue_push (ac_cqueue_push
        ((ac_cqueue_pop (pushSeq (mkQueue 0 0 (fun _ => 0)) (List.range' 1 16)).1).2)
        17 true (fun _ => 0)).2.1 18 true (fun _ => 0)).2.1.size = 32 ∧
    (ac_cqueue_push (ac_cqueue_push
        ((ac_cqueue_pop (pushSeq (mkQueue 0 0 (fun _ => 0)) (List.range' 1 16)).1).2)
        17 true (fun _ => 0)).2.1 18 true (fun _ => 0)).1 = 0 ∧
    (pushSeq (mkQueue 0 0 (fun _ => 0)) (List.range' 1 16)).2.2 = [] ∧
    (ac_cqueue_push (ac_cqueue_push
        ((ac_cqueue_pop (pushSeq (mkQueue 0 0 (fun _ => 0)) (List.range' 1 16)).1).2)
        17 true (fun _ => 0)).2.1 18 true (fun _ => 0)).2.2 = [] ∧
    ¬ 2 ∈ (ac_cqueue_push (ac_cqueue_push
        ((ac_cqueue_pop (pushSeq (mkQueue 0 0 (fun _ => 0)) (List.range' 1 16)).1).2)
        17 true (fun _ => 0)).2.1 18 true (fun _ => 0)).2.1.queue ∧
    (ac_cqueue_pop (ac_cqueue_push (ac_cqueue_push
        ((ac_cqueue_pop (pushSeq (mkQueue 0 0 (fun _ => 0)) (List.range' 1 16)).1).2)
        17 true (fun _ => 0)).2.1 18 true (fun _ => 0)).2.1).1 = 18 := by
  decide

/-! ### C6 — failed insert mutates nothing -/

/-- C6: whenever `ac_cqueue_push` fails (returns `-1`) the queue state is
returned exactly as it was — capacity, slots, front, rear and count all
unchanged — nothing is released, and the failure is one of the two cases the
claim names: full fixed non-overwrite queue, or growth allocation failure on a
growable queue. -/
theorem c6_insert_failure_no_mutation (cq : ac_cqueue_t) (item : Nat) (allocOk : Bool)
    (mem : Nat → Nat) (h : (ac_cqueue_push cq item allocOk mem).1 = -1) :
    (ac_cqueue_push cq item allocOk mem).2.1 = cq ∧
    (ac_cqueue_push cq item allocOk mem).2.2 = [] ∧
    ((cq.count = cq.size ∧ cq.dyn_size = false ∧ cq.overwrite = false) ∨
      (cq.count = cq.size ∧ cq.dyn_size = true ∧ allocOk = false)) := by
  by_cases h1 : cq.count = cq.size ∧ cq.dyn_size = false ∧ cq.overwrite = false
  · refine ⟨?_, ?_, Or.inl h1⟩ <;> simp [ac_cqueue_push, h1]
  · by_cases h2 : cq.count = cq.size ∧ cq.dyn_size = true ∧ allocOk = false
    · refine ⟨?_, ?_, Or.inr h2⟩ <;> simp [ac_cqueue_push, h1, h2]
    · exfalso
      simp only [ac_cqueue_push, if_neg h1, if_neg h2] at h
      exact absurd h (by decide)

/-- C6 witness: a concrete failing insert (full fixed capacity-1 queue). -/
theorem c6_insert_failure_no_mutation_witness :
    (ac_cqueue_push (pushSeq (mkQueue 1 0 (fun _ => 0)) [5]).1 6 true (fun _ => 0)).2.1 =
      (pushSeq (mkQueue 1 0 (fun _ => 0)) [5]).1 ∧
    (ac_cqueue_push (pushSeq (mkQueue 1 0 (fun _ => 0)) [5]).1 6 true (fun _ => 0)).2.2 = [] ∧
    (((pushSeq (mkQueue 1 0 (fun _ => 0)) [5]).1.count =
        (pushSeq (mkQueue 1 0 (fun _ => 0)) [5]).1.size ∧
      (pushSeq (mkQueue 1 0 (fun _ => 0)) [5]).1.dyn_size = false ∧
      (pushSeq (mkQueue 1 0 (fun _ => 0)) [5]).1.overwrite = false) ∨
     ((pushSeq (mkQueue 1 0 (fun _ => 0)) [5]).1.count =
        (pushSeq (mkQueue 1 0 (fun _ => 0)) [5]).1.size ∧
      (pushSeq (mkQueue 1 0 (fun _ => 0)) [5]).1.dyn_size = true ∧
      true = false)) :=
  c6_insert_failure_no_mutation _ 6 true _ (by decide)

/-! ### C9 — pop on a non-overwrite queue -/

/-- C9: on a non-empty queue created without the OVERWRITE flag, Remove
returns the item at the (wrapped) front index, does not clear the slot (the
whole slot array is unchanged), and changes no field other than `front`
(advanced by one after wrapping) and `count` (decremented). -/
theorem c9_pop_non_overwrite_frame (cq : ac_cqueue_t) (how : cq.overwrite = false)
    (hc : cq.count ≠ 0) :
    ac_cqueue_pop cq =
      (cq.queue.getD (if cq.front = cq.size then 0 else cq.front) 0,
        { cq with
            front := (if cq.front = cq.size then 0 else cq.front) + 1,
            count := cq.count - 1 }) := by
  obtain ⟨sz, qu, f, r, c, d, ow⟩ := cq
  by_cases hf : f = sz <;> simp_all [ac_cqueue_pop]

/-! ### C7 — constructor flag validation -/

theorem testBit_flag_mask (i : Nat) :
    (UINT_MAX32 ^^^ AC_CQUEUE_OVERWRITE).testBit i =
      ((decide (i < 32)).xor (decide (0 = i))) := by
  have e1 : UINT_MAX32 = 2 ^ 32 - 1 := by norm_num [UINT_MAX32]
  have e2 : AC_CQUEUE_OVERWRITE = 2 ^ 0 := by norm_num [AC_CQUEUE_OVERWRITE]
  rw [e1, e2, Nat.testBit_xor, Nat.testBit_two_pow_sub_one, Nat.testBit_two_pow]

/-- C7: `ac_cqueue_new` fails (returns no queue) exactly when some bit other
than the OVERWRITE bit is set in `flags`; otherwise it returns an empty queue
with `front = rear = count = 0`, growable of capacity 16 iff the requested
capacity was 0 (and of the requested capacity otherwise), overwrite mode
following bit 0 of `flags`, and — when overwrite is requested — every slot
pre-cleared to `NULL`. -/
theorem c7_construct_validation (size flags : Nat) (mem : Nat → Nat) (hf : flags < 2 ^ 32) :
    (ac_cqueue_new size flags mem = none ↔ ∃ i, i ≠ 0 ∧ flags.testBit i) ∧
    ∀ q, ac_cqueue_new size flags mem = some q →
      q.front = 0 ∧ q.rear = 0 ∧ q.count = 0 ∧
      (q.dyn_size = true ↔ size = 0) ∧
      q.size = (if size = 0 then 16 else size) ∧
      q.overwrite = flags.testBit 0 ∧
      (q.overwrite = true → q.queue = List.replicate q.size 0) := by
  have hcond : (ac_cqueue_new size flags mem = none) ↔
      flags &&& (UINT_MAX32 ^^^ AC_CQUEUE_OVERWRITE) ≠ 0 := by
    unfold ac_cqueue_new
    split_ifs with h <;> simp [h]
  constructor
  · rw [hcond]
    constructor
    · intro hne
      obtain ⟨i, hb⟩ := Nat.ne_zero_implies_bit_true hne
      rw [Nat.testBit_and] at hb
      have hfb := Bool.and_eq_true_iff.mp hb
      have hMi := hfb.2
      rw [testBit_flag_mask i] at hMi
      have hi0 : i ≠ 0 := by
        intro h0
        subst h0
        simp at hMi
      exact ⟨i, hi0, hfb.1⟩
    · rintro ⟨i, hi0, hib⟩
      have hlt32 : i < 32 := by
        by_contra hge
        have hfl : flags < 2 ^ i :=
          lt_of_lt_of_le hf (Nat.pow_le_pow_right (by norm_num) (by omega))
        rw [Nat.testBit_lt_two_pow hfl] at hib
        exact absurd hib (by simp)
      intro h0
      have hbt : (flags &&& (UINT_MAX32 ^^^ AC_CQUEUE_OVERWRITE)).testBit i = true := by
        rw [Nat.testBit_and, testBit_flag_mask i, hib]
        simp [hlt32, Ne.symm hi0]
      rw [h0] at hbt
      simp at hbt
  · intro q hq
    unfold ac_cqueue_new at hq
    split_ifs at hq with h
    have hq2 : q = mkQueue size flags mem := by
      exact (Option.some.injEq _ _).mp hq.symm
    subst hq2
    have hmod : flags % 2 = 0 ∨ flags % 2 = 1 := by omega
    have hov : (flags &&& AC_CQUEUE_OVERWRITE != 0) = flags.testBit 0 := by
      rcases hmod with hm | hm <;>
        simp [AC_CQUEUE_OVERWRITE, Nat.and_one_is_mod, Nat.testBit_zero, hm]
    refine ⟨rfl, rfl, rfl, by simp [mkQueue], ?_, ?_, ?_⟩
    · by_cases hs : size = 0 <;> simp [mkQueue, hs, AC_CQUEUE_ALLOC_CHUNK_SZ]
    · simpa [mkQueue] using hov
    · intro hw
      simp only [mkQueue] at hw ⊢
      simp only [hw]
      simp

/-- C7 witness: construction with requested capacity 0 and the OVERWRITE flag. -/
theorem c7_construct_validation_witness :
    (ac_cqueue_new 0 1 (fun _ => 0) = none ↔ ∃ i, i ≠ 0 ∧ Nat.testBit 1 i) ∧
    ∀ q, ac_cqueue_new 0 1 (fun _ => 0) = some q →
      q.front = 0 ∧ q.rear = 0 ∧ q.count = 0 ∧
      (q.dyn_size = true ↔ (0 : Nat) = 0) ∧
      q.size = (if (0 : Nat) = 0 then 16 else 0) ∧
      q.overwrite = Nat.testBit 1 0 ∧
      (q.overwrite = true → q.queue = List.replicate q.size 0) :=
  c7_construct_validation 0 1 (fun _ => 0) (by norm_num)

/-! ### C8 — index bounds invariant -/

theorem qInv_mkQueue (size flags : Nat) (mem : Nat → Nat) : QInv (mkQueue size flags mem) := by
  unfold QInv mkQueue
  by_cases hs : size = 0 <;>
    by_cases hw : (flags &&& AC_CQUEUE_OVERWRITE != 0) = true <;>
      simp_all [AC_CQUEUE_ALLOC_CHUNK_SZ] <;> omega

theorem qInv_pushSteps (q : ac_cqueue_t) (item : Nat) (mem : Nat → Nat) (h : QInv q) :
    QInv (frontStep (countStep (storeStep (wrapRearStep (growStep q mem)) item))) := by
  obtain ⟨sz, qu, f, r, c, d, ow⟩ := q
  obtain ⟨h1, h2, h3, h4, h5⟩ := h
  simp only [QInv] at *
  unfold growStep wrapRearStep storeStep countStep frontStep
  split_ifs <;> simp_all [AC_CQUEUE_ALLOC_CHUNK_SZ] <;> omega

theorem qInv_runOp (q : ac_cqueue_t) (op : Op) (h : QInv q) : QInv (runOp q op) := by
  cases op with
  | pop =>
    obtain ⟨sz, qu, f, r, c, d, ow⟩ := q
    obtain ⟨h1, h2, h3, h4, h5⟩ := h
    simp only [runOp, ac_cqueue_pop]
    split_ifs <;> simp_all [QInv] <;> omega
  | push item allocOk mem =>
    simp only [runOp, ac_cqueue_push]
    split_ifs with hf1 hf2
    · exact h
    · exact h
    · exact qInv_pushSteps q item mem h

theorem qInv_runOps (q : ac_cqueue_t) (ops : List Op) (h : QInv q) : QInv (runOps q ops) := by
  induction ops generalizing q with
  | nil => exact h
  | cons op rest ih => exact ih (runOp q op) (qInv_runOp q op h)

/-- C8 counterexample: `front < capacity` does not hold in every state
observable between operations.  On a fixed capacity-1 queue, after one Insert
and one Remove the queue is quiescent with `front = 1 = capacity` (front, like
rear, is wrapped to 0 only at the start of the next Remove). -/
theorem c8_front_can_equal_capacity :
    (runOps (mkQueue 1 0 (fun _ => 0)) [Op.push 5 true (fun _ => 0), Op.pop]).front = 1 ∧
    (runOps (mkQueue 1 0 (fun _ => 0)) [Op.push 5 true (fun _ => 0), Op.pop]).size = 1 := by
  decide

/-- C8 (amended): in every state reachable from a constructed queue by any
sequence of Insert/Remove operations, `front ≤ capacity` and
`rear ≤ capacity` hold (both indices may linger at `capacity` between
operations and are wrapped to 0 immediately before use). -/
theorem c8_index_bounds_invariant (size flags : Nat) (mem : Nat → Nat) (ops : List Op) :
    (runOps (mkQueue size flags mem) ops).front ≤ (runOps (mkQueue size flags mem) ops).size ∧
    (runOps (mkQueue size flags mem) ops).rear ≤ (runOps (mkQueue size flags mem) ops).size := by
  have h := qInv_runOps (mkQueue size flags mem) ops (qInv_mkQueue size flags mem)
  exact ⟨h.2.1, h.2.2.1⟩

/-! ### C10 — growth vs. eviction on a growable overwrite queue -/

/-- C10 counterexample: on a growable overwrite queue, Insert into a full
queue does grow the capacity (16 → 32) but does *not* skip the eviction: the
eviction check still runs at the write position, and here it releases the live
item 2.  Trace: push 1..16 into a growable overwrite queue, pop (returns 1),
push 17 (queue full again, wrapped), push 18 (grows, then releases 2). -/
theorem c10_growth_still_evicts :
    (ac_cqueue_pop (pushSeq (mkQueue 0 1 (fun _ => 0)) (List.range' 1 16)).1).1 = 1 ∧
    (ac_cqueue_push
      ((ac_cqueue_pop (pushSeq (mkQueue 0 1 (fun _ => 0)) (List.range' 1 16)).1).2)
      17 true (fun _ => 0)).2.1.count =
      (ac_cqueue_push
        ((ac_cqueue_pop (pushSeq (mkQueue 0 1 (fun _ => 0)) (List.range' 1 16)).1).2)
        17 true (fun _ => 0)).2.1.size ∧
    (ac_cqueue_push (ac_cqueue_push
        ((ac_cqueue_pop (pushSeq (mkQueue 0 1 (fun _ => 0)) (List.range' 1 16)).1).2)
        17 true (fun _ => 0)).2.1 18 true (fun _ => 0)).2.1.size = 32 ∧
    (ac_cqueue_push (ac_cqueue_push
        ((ac_cqueue_pop (pushSeq (mkQueue 0 1 (fun _ => 0)) (List.range' 1 16)).1).2)
        17 true (fun _ => 0)).2.1 18 true (fun _ => 0)).2.2 = [2] := by
  decide

/-- C10 (amended): on a full growable overwrite queue (with the realloc
succeeding), Insert takes the growth branch rather than the reject branch —
capacity increases by 16, the insert succeeds and count is incremented — but
the eviction check is not skipped: the release function is still invoked on
the value found at the write position (a live item when the live span has
wrapped, or the uninitialised contents of the fresh slots) whenever that value
is nonzero. -/
theorem c10_growth_takes_precedence (cq : ac_cqueue_t) (item : Nat) (mem : Nat → Nat)
    (hdyn : cq.dyn_size = true) (how : cq.overwrite = true) (hfull : cq.count = cq.size)
    (hrear : cq.rear ≤ cq.size) :
    (ac_cqueue_push cq item true mem).1 = 0 ∧
    (ac_cqueue_push cq item true mem).2.1.size = cq.size + 16 ∧
    (ac_cqueue_push cq item true mem).2.1.count = cq.count + 1 ∧
    (ac_cqueue_push cq item true mem).2.2 =
      (if (cq.queue ++ (List.range 16).map mem).getD cq.rear 0 ≠ 0
       then [(cq.queue ++ (List.range 16).map mem).getD cq.rear 0] else []) := by
  have hne : ¬ cq.rear = cq.size + 16 := by omega
  refine ⟨?_, ?_, ?_, ?_⟩ <;>
    simp [ac_cqueue_push, growStep, wrapRearStep, storeStep, countStep, frontStep,
      evictList, AC_CQUEUE_ALLOC_CHUNK_SZ, hdyn, how, hfull, hne] <;>
    split_ifs <;> simp_all

/-- C10 witness: the amended statement evaluated on a freshly filled growable
overwrite queue of capacity 16. -/
theorem c10_growth_takes_precedence_witness :
    (ac_cqueue_push (pushSeq (mkQueue 0 1 (fun _ => 0)) (List.range' 1 16)).1 17 true
        (fun _ => 0)).1 = 0 ∧
    (ac_cqueue_push (pushSeq (mkQueue 0 1 (fun _ => 0)) (List.range' 1 16)).1 17 true
        (fun _ => 0)).2.1.size = (pushSeq (mkQueue 0 1 (fun _ => 0)) (List.range' 1 16)).1.size + 16 ∧
    (ac_cqueue_push (pushSeq (mkQueue 0 1 (fun _ => 0)) (List.range' 1 16)).1 17 true
        (fun _ => 0)).2.1.count = (pushSeq (mkQueue 0 1 (fun _ => 0)) (List.range' 1 16)).1.count + 1 ∧
    (ac_cqueue_push (pushSeq (mkQueue 0 1 (fun _ => 0)) (List.range' 1 16)).1 17 true
        (fun _ => 0)).2.2 =
      (if ((pushSeq (mkQueue 0 1 (fun _ => 0)) (List.range' 1 16)).1.queue ++
            (List.range 16).map (fun _ => 0)).getD
          (pushSeq (mkQueue 0 1 (fun _ => 0)) (List.range' 1 16)).1.rear 0 ≠ 0
       then [((pushSeq (mkQueue 0 1 (fun _ => 0)) (List.range' 1 16)).1.queue ++
            (List.range 16).map (fun _ => 0)).getD
          (pushSeq (mkQueue 0 1 (fun _ => 0)) (List.range' 1 16)).1.rear 0] else []) :=
  c10_growth_takes_precedence _ 17 _ (by decide) (by decide) (by decide) (by decide)

/-! ### C3 — fixed non-overwrite queue FIFO behaviour -/

theorem push_fixed_nonfull (q : ac_cqueue_t) (x : Nat) (a : Bool) (m : Nat → Nat)
    (hd : q.dyn_size = false) (how : q.overwrite = false) (hlt : q.count < q.size)
    (hrear : q.rear < q.size) :
    ac_cqueue_push q x a m =
      (0, { q with
              queue := q.queue.set q.rear x
              rear := q.rear + 1
              count := q.count + 1 }, []) := by
  obtain ⟨sz, qu, f, r, c, d, ow⟩ := q
  dsimp only at hd how hlt hrear
  subst hd how
  simp [ac_cqueue_push, growStep, wrapRearStep, evictList, storeStep, countStep, frontStep,
    Nat.ne_of_lt hrear, Nat.ne_of_lt hlt, hlt]

theorem pushSeq_fixed (items : List Nat) (q : ac_cqueue_t)
    (hd : q.dyn_size = false) (how : q.overwrite = false)
    (hle : q.count + items.length ≤ q.size) (hr : q.rear = q.count) :
    pushSeq q items =
      ({ q with
          queue := writeAt q.queue q.rear items
          rear := q.rear + items.length
          count := q.count + items.length },
        List.replicate items.length (0 : Int), []) := by
  induction items generalizing q with
  | nil => simp [pushSeq, writeAt]
  | cons x xs ih =>
    have hp := push_fixed_nonfull q x true (fun _ => 0) hd how
      (by simp at hle; omega) (by simp at hle; omega)
    rw [pushSeq, hp]
    dsimp only
    rw [ih { q with queue := q.queue.set q.rear x, rear := q.rear + 1, count := q.count + 1 }
      hd how (by simp at hle ⊢; omega) (by simp [hr])]
    dsimp only
    refine congrArg₂ Prod.mk ?_ (by simp [List.replicate_succ])
    rw [show q.rear + 1 + xs.length = q.rear + (xs.length + 1) from by omega,
      show q.count + 1 + xs.length = q.count + (xs.length + 1) from by omega,
      show writeAt (q.queue.set q.rear x) (q.rear + 1) xs = writeAt q.queue q.rear (x :: xs)
        from rfl]
    simp [hr]

/-- C3: a fixed (capacity `N > 0`) non-overwrite queue: pushing `N` distinct
items succeeds every time and releases nothing; a further Insert fails and
returns the state — in particular `count = N` — completely unchanged; the
next `N` Removes return the items in insertion order leaving `count = 0`; and
one more Remove reports empty (returns the `NULL` indicator without mutating
the queue). -/
theorem c3_fixed_queue_fifo (N : Nat) (items : List Nat) (mem : Nat → Nat)
    (hN : 0 < N) (hlen : items.length = N) (_hnd : items.Nodup) :
    (pushSeq (mkQueue N 0 mem) items).2.1 = List.replicate N (0 : Int) ∧
    (pushSeq (mkQueue N 0 mem) items).2.2 = [] ∧
    (∀ y a m2, ac_cqueue_push (pushSeq (mkQueue N 0 mem) items).1 y a m2 =
        (-1, (pushSeq (mkQueue N 0 mem) items).1, [])) ∧
    (pushSeq (mkQueue N 0 mem) items).1.count = N ∧
    (popSeq (pushSeq (mkQueue N 0 mem) items).1 N).1 = items ∧
    (popSeq (pushSeq (mkQueue N 0 mem) items).1 N).2.count = 0 ∧
    ac_cqueue_pop (popSeq (pushSeq (mkQueue N 0 mem) items).1 N).2 =
      (0, (popSeq (pushSeq (mkQueue N 0 mem) items).1 N).2) := by
  have hNz : N ≠ 0 := by omega
  have hq0 : mkQueue N 0 mem =
      ⟨N, (List.range N).map mem, 0, 0, 0, false, false⟩ := by
    simp [mkQueue, hNz, AC_CQUEUE_OVERWRITE]
  have hps := pushSeq_fixed items (mkQueue N 0 mem)
    (by rw [hq0]) (by rw [hq0]) (by rw [hq0]; dsimp only; omega) (by rw [hq0])
  rw [hq0] at hps
  dsimp only at hps
  rw [Nat.zero_add, hlen] at hps
  rw [hq0]
  set S : ac_cqueue_t :=
    ⟨N, writeAt ((List.range N).map mem) 0 items, 0, N, N, false, false⟩ with hS
  have hSlen : S.queue.length = N := by
    rw [hS]
    dsimp only
    rw [writeAt_length]
    simp
  have hfail : ∀ y a m2, ac_cqueue_push S y a m2 = (-1, S, []) := by
    intro y a m2
    rw [hS]
    simp [ac_cqueue_push]
  have hpops := popSeq_vals N S rfl (by rw [hS]) (by rw [hS]; dsimp only; omega)
    (by rw [hSlen, hS]) (by rw [hS]; dsimp only; omega)
  have hvals : (popSeq S N).1 = items := by
    rw [hpops.1]
    have : ∀ t ∈ List.range N,
        S.queue.getD ((S.front % S.size + t) % S.size) 0 = items.getD t 0 := by
      intro t ht
      have htN : t < N := List.mem_range.mp ht
      rw [hS]
      dsimp only
      rw [Nat.zero_mod, Nat.zero_add, Nat.mod_eq_of_lt htN]
      have := writeAt_getD items ((List.range N).map mem) 0 t
        (by simp [hlen]) (by omega)
      rw [Nat.zero_add] at this
      exact this
    rw [List.map_congr_left this]
    have := map_getD_range items
    rw [hlen] at this
    exact this
  have hemptypop : ac_cqueue_pop (popSeq S N).2 = (0, (popSeq S N).2) := by
    have hcz := hpops.2
    rw [ac_cqueue_pop, if_pos hcz]
  rw [hps]
  dsimp only
  exact ⟨rfl, rfl, hfail, rfl, hvals, hpops.2, hemptypop⟩

/-- C3 witness: capacity 3 with items 10, 20, 30. -/
theorem c3_fixed_queue_fifo_witness :
    (pushSeq (mkQueue 3 0 (fun _ => 0)) [10, 20, 30]).2.1 = List.replicate 3 (0 : Int) ∧
    (pushSeq (mkQueue 3 0 (fun _ => 0)) [10, 20, 30]).2.2 = [] ∧
    (∀ y a m2, ac_cqueue_push (pushSeq (mkQueue 3 0 (fun _ => 0)) [10, 20, 30]).1 y a m2 =
        (-1, (pushSeq (mkQueue 3 0 (fun _ => 0)) [10, 20, 30]).1, [])) ∧
    (pushSeq (mkQueue 3 0 (fun _ => 0)) [10, 20, 30]).1.count = 3 ∧
    (popSeq (pushSeq (mkQueue 3 0 (fun _ => 0)) [10, 20, 30]).1 3).1 = [10, 20, 30] ∧
    (popSeq (pushSeq (mkQueue 3 0 (fun _ => 0)) [10, 20, 30]).1 3).2.count = 0 ∧
    ac_cqueue_pop (popSeq (pushSeq (mkQueue 3 0 (fun _ => 0)) [10, 20, 30]).1 3).2 =
      (0, (popSeq (pushSeq (mkQueue 3 0 (fun _ => 0)) [10, 20, 30]).1 3).2) :=
  c3_fixed_queue_fifo 3 [10, 20, 30] (fun _ => 0) (by decide) (by decide) (by decide)

/-! ### C4 — overwrite-mode eviction and retention -/

/-- C4: pushing `N + k` nonzero items (`k > 0`) into a fresh overwrite queue
of fixed capacity `N`: every insert succeeds, `free_item` is invoked exactly
`k` times and the values passed are the first `k` items, oldest first; the
queue then holds exactly `N` items, and `N` Removes return the last `N`
inserted items in their relative insertion order, leaving the queue empty. -/
theorem c4_overwrite_eviction_fifo (N k : Nat) (items : List Nat) (mem : Nat → Nat)
    (hN : 0 < N) (hk : 0 < k) (hlen : items.length = N + k)
    (hnz : ∀ x ∈ items, x ≠ 0) :
    (pushSeq (mkQueue N 1 mem) items).2.1 = List.replicate (N + k) (0 : Int) ∧
    (pushSeq (mkQueue N 1 mem) items).2.2 = items.take k ∧
    (pushSeq (mkQueue N 1 mem) items).1.count = N ∧
    (popSeq (pushSeq (mkQueue N 1 mem) items).1 N).1 = items.drop k ∧
    (popSeq (pushSeq (mkQueue N 1 mem) items).1 N).2.count = 0 := by
  have hps := pushSeq_owState N items mem hN hnz
  rw [hps]
  dsimp only
  rw [hlen]
  have hcnt : (owState N items).count = N := by
    rw [owState]
    dsimp only
    rw [hlen]
    omega
  have hpop := popSeq_vals N (owState N items) hcnt
    (by rw [owState]) (by rw [owState]; exact le_of_lt (Nat.mod_lt _ hN))
    (by rw [owState]; simp) (by rw [owState]; exact hN)
  have hvals : (popSeq (owState N items) N).1 = items.drop k := by
    rw [hpop.1]
    have hperT : ∀ t ∈ List.range N,
        (owState N items).queue.getD
          (((owState N items).front % (owState N items).size + t) %
            (owState N items).size) 0 = items.getD (k + t) 0 := by
      intro t ht
      have htN : t < N := List.mem_range.mp ht
      rw [owState]
      dsimp only
      rw [hlen]
      rw [Nat.mod_mod_of_dvd (N + k) (dvd_refl N), Nat.add_mod_left, Nat.mod_add_mod]
      have hjN : (k + t) % N < N := Nat.mod_lt _ hN
      rw [getD_map_range _ _ _ hjN, if_pos (lt_of_lt_of_le hjN (by omega))]
      have hd := Nat.div_add_mod (k + t) N
      have harith1 : N + k - 1 - (k + t) % N = (N - 1 - t) + N * ((k + t) / N) := by
        omega
      rw [harith1, Nat.add_mul_mod_self_left,
        Nat.mod_eq_of_lt (by omega : N - 1 - t < N)]
      congr 1
      omega
    rw [List.map_congr_left hperT]
    apply List.ext_getElem
      (by rw [List.length_map, List.length_range, List.length_drop, hlen]; omega)
    intro i h1 h2
    have hiN : i < N := by
      rw [List.length_map, List.length_range] at h1
      exact h1
    simp only [List.getElem_map, List.getElem_range]
    rw [List.getD_eq_getElem _ _ (by omega : k + i < items.length)]
    rw [List.getElem_drop]
  exact ⟨rfl, by rw [show N + k - N = k from by omega], hcnt, hvals, hpop.2⟩

/-- C4 witness: capacity 2, items 5, 6, 7 (one eviction). -/
theorem c4_overwrite_eviction_fifo_witness :
    (pushSeq (mkQueue 2 1 (fun _ => 0)) [5, 6, 7]).2.1 = List.replicate (2 + 1) (0 : Int) ∧
    (pushSeq (mkQueue 2 1 (fun _ => 0)) [5, 6, 7]).2.2 = [5, 6, 7].take 1 ∧
    (pushSeq (mkQueue 2 1 (fun _ => 0)) [5, 6, 7]).1.count = 2 ∧
    (popSeq (pushSeq (mkQueue 2 1 (fun _ => 0)) [5, 6, 7]).1 2).1 = [5, 6, 7].drop 1 ∧
    (popSeq (pushSeq (mkQueue 2 1 (fun _ => 0)) [5, 6, 7]).1 2).2.count = 0 :=
  c4_overwrite_eviction_fifo 2 1 [5, 6, 7] (fun _ => 0) (by decide) (by decide)
    (by decide) (by decide)

/-- C9 witness: pop from a concrete two-element non-overwrite queue. -/
theorem c9_pop_non_overwrite_frame_witness :
    ac_cqueue_pop (pushSeq (mkQueue 2 0 (fun _ => 0)) [7, 8]).1 =
      ((pushSeq (mkQueue 2 0 (fun _ => 0)) [7, 8]).1.queue.getD
        (if (pushSeq (mkQueue 2 0 (fun _ => 0)) [7, 8]).1.front =
            (pushSeq (mkQueue 2 0 (fun _ => 0)) [7, 8]).1.size then 0
         else (pushSeq (mkQueue 2 0 (fun _ => 0)) [7, 8]).1.front) 0,
        { (pushSeq (mkQueue 2 0 (fun _ => 0)) [7, 8]).1 with
            front := (if (pushSeq (mkQueue 2 0 (fun _ => 0)) [7, 8]).1.front =
                (pushSeq (mkQueue 2 0 (fun _ => 0)) [7, 8]).1.size then 0
              else (pushSeq (mkQueue 2 0 (fun _ => 0)) [7, 8]).1.front) + 1,
            count := (pushSeq (mkQueue 2 0 (fun _ => 0)) [7, 8]).1.count - 1 }) :=
  c9_pop_non_overwrite_frame _ (by decide) (by decide)

end LibacCQueue
